import Mathlib

/-!
Shallow embedding of the spacedrive core fragments covered by the frozen
claims: the custom-URI server (`src/core/src/custom_uri/mod.rs`), the jobs
API router (`src/core/src/api/jobs.rs`), and the mobile request dispatcher
(`src/apps/mobile/modules/sd-core/core/src/lib.rs`).

Conventions: machine integers become `Nat`/`Int`; timestamps become integer
nanosecond counts; `std::path::Path` values become `RPath` (an absolute flag
plus a component list, with `..` kept as a literal component exactly as
Rust's component parser does); fallible or panicking code returns `Option`
or a dedicated result constructor.
-/

namespace Spacedrive

/-! ## Paths (model of `std::path::Path` operations used by the thumbnail route)

Rust's `Path` component iterator normalizes away `.` components and repeated
separators but keeps `..` as a `ParentDir` component. `RPath` stores the
post-parse component list together with an absolute flag. -/

structure RPath where
  absolute : Bool
  comps : List String
deriving DecidableEq, Repr

/-- Model of `Path::join` (`PathBuf::push`): an absolute right operand
replaces the whole path, otherwise components are appended. -/
def RPath.join (p q : RPath) : RPath :=
  if q.absolute then q else ⟨p.absolute, p.comps ++ q.comps⟩

/-- Model of `Path::starts_with`: component-wise prefix test. This is a
purely lexical test; it does not resolve `..` components. -/
def RPath.starts_with (p base : RPath) : Bool :=
  p.absolute == base.absolute && base.comps.isPrefixOf p.comps

/-- Model of `Path::file_name`: the last component when it is a normal
component; `..` (ParentDir) yields `none`. -/
def RPath.file_name (p : RPath) : Option String :=
  match p.comps.getLast? with
  | some c => if c = ".." then none else some c
  | none => none

/-- Split a character list at its last `'.'`, returning the stem and the
part after that dot (structural recursion so the kernel can evaluate it). -/
def lastDotSplit : List Char → Option (List Char × List Char)
  | [] => none
  | c :: rest =>
    match lastDotSplit rest with
    | some (st, ex) => some (c :: st, ex)
    | none => if c = '.' then some ([], rest) else none

/-- Extension of a file name string, following `Path::extension`: the part
after the last dot, unless the name has no dot or the stem before the last
dot is empty (hidden files such as `.webp` have no extension). -/
def extOfName (s : String) : Option String :=
  match lastDotSplit s.toList with
  | some (st, ex) => if st.isEmpty then none else some (String.mk ex)
  | none => none

/-- Model of `Path::extension`. -/
def RPath.extension (p : RPath) : Option String :=
  (p.file_name).bind extOfName

/-- One step of lexical path canonicalization: `..` pops the last kept
component (at the root of an absolute path it is a no-op, as the OS
resolves it). Used only to state what a request path resolves to; the
code under verification never canonicalizes. -/
def normStep (stack : List String) (c : String) : List String :=
  if c = ".." then stack.dropLast else stack ++ [c]

/-- Canonicalization of an absolute path: resolve `..` components the way
the operating system does when the file is actually opened. -/
def RPath.canon (p : RPath) : RPath :=
  ⟨p.absolute, p.comps.foldl normStep []⟩

/-! ## Thumbnail route (`custom_uri/mod.rs`, `/thumbnail/*path` handler) -/

/-- Outcome of the thumbnail handler before filesystem I/O: either the
guard rejected the request with 404, or the handler proceeds to
`File::open` the given path and serve it. -/
inductive ThumbResp where
  | notFound
  | serveFile (path : RPath)
deriving DecidableEq, Repr

/-- The directory-traversal/extension guard of the thumbnail route:
`path.starts_with(&thumbnail_path) && path.extension() == Some("webp")`
on `path = data_dir/thumbnails/<rel>`. -/
def thumbnailGuard (dataDir rel : RPath) : Bool :=
  let thumbnail_path := dataDir.join ⟨false, ["thumbnails"]⟩
  let path := thumbnail_path.join rel
  path.starts_with thumbnail_path && (path.extension == some "webp")

/-- The thumbnail route handler up to the point of filesystem I/O: requests
failing the guard get 404; otherwise the joined (un-canonicalized) path is
opened and served. -/
def thumbnailHandler (dataDir rel : RPath) : ThumbResp :=
  if thumbnailGuard dataDir rel then
    .serveFile ((dataDir.join ⟨false, ["thumbnails"]⟩).join rel)
  else
    .notFound

/-! ## MIME inference (`custom_uri/mod.rs`, `infer_the_mime_type`) -/

def MAX_TEXT_READ_LENGTH : Nat := 10 * 1024

/-- The known-media extension table (the first `match ext` in
`infer_the_mime_type`); unknown extensions fall to `"text/plain"`.
The `ts`/`mpeg` arms are compiled in on non-macOS targets and are kept. -/
def mediaMime (ext : String) : String :=
  match ext with
  | "aac" => "audio/aac"
  | "mid" | "midi" => "audio/midi, audio/x-midi"
  | "mp3" => "audio/mpeg"
  | "m4a" => "audio/mp4"
  | "oga" => "audio/ogg"
  | "opus" => "audio/opus"
  | "wav" => "audio/wav"
  | "weba" => "audio/webm"
  | "avi" => "video/x-msvideo"
  | "mp4" | "m4v" => "video/mp4"
  | "ts" => "video/mp2t"
  | "mpeg" => "video/mpeg"
  | "ogv" => "video/ogg"
  | "webm" => "video/webm"
  | "3gp" => "video/3gpp"
  | "3g2" => "video/3gpp2"
  | "mov" => "video/quicktime"
  | "bmp" => "image/bmp"
  | "gif" => "image/gif"
  | "ico" => "image/vnd.microsoft.icon"
  | "jpeg" | "jpg" => "image/jpeg"
  | "png" => "image/png"
  | "svg" => "image/svg+xml"
  | "tif" | "tiff" => "image/tiff"
  | "webp" => "image/webp"
  | "pdf" => "application/pdf"
  | "heif" | "heifs" => "image/heif,image/heif-sequence"
  | "heic" | "heics" => "image/heic,image/heic-sequence"
  | "avif" | "avci" | "avcs" => "image/avif"
  | _ => "text/plain"

/-- The browser-recognized text-type table (the second `match ext` in
`infer_the_mime_type`); `none` is the fall-through arm that inspects the
detected charset. -/
def textTableMime (ext : String) : Option String :=
  match ext with
  | "html" | "htm" => some "text/html"
  | "css" => some "text/css"
  | "js" | "mjs" => some "text/javascript"
  | "csv" => some "text/csv"
  | "md" | "markdown" => some "text/markdown"
  | "rtf" => some "text/rtf"
  | "vtt" => some "text/vtt"
  | "xml" => some "text/xml"
  | "txt" => some "text/plain"
  | _ => none

/-- Result of MIME inference: a MIME string, or the `todo!()` reached for an
unknown extension whose probed content is not detected as text. -/
inductive MimeResult where
  | ok (mime : String)
  | unimplementedTodo
deriving DecidableEq, Repr

/-- Modelled from the spec: the text-detection heuristic
`sd_file_ext::text::is_text(buf, is_complete)` is repository code not under
`src/`. Per the spec it "runs a text-detection heuristic; if text, a charset
is attached". We model it as: a buffer containing a NUL byte is binary (no
charset); any other buffer is text with charset `utf-8`. -/
def is_text (buf : List Nat) (_is_complete : Bool) : Option String :=
  if buf.contains 0 then none else some "utf-8"

/-- The probe buffer read for an unknown extension: `read_exact` into a
buffer of `min(metadata.len(), MAX_TEXT_READ_LENGTH)` bytes. The file
content is modelled as its byte list, so `metadata.len()` is
`content.length` and the read yields the first `bufLen` bytes. -/
def probeBuf (content : List Nat) : List Nat :=
  content.take (min content.length MAX_TEXT_READ_LENGTH)

/-- `is_text(&text_buf, text_buf.len() == (metadata.len() as usize)).unwrap_or("")`:
the detected charset, empty when the heuristic finds none. -/
def probedCharset (is_text_fn : List Nat → Bool → Option String) (content : List Nat) :
    String :=
  (is_text_fn (probeBuf content) ((probeBuf content).length == content.length)).getD ""

/-- Model of `infer_the_mime_type`. The text-detection heuristic is passed
in as `is_text_fn` (its concrete code lives outside `src/`); the file is
modelled by its byte content. I/O errors of `read_exact`/`seek` cannot
occur in this model because the buffer never exceeds the file length. In
the probing branch the outer `mime_type` is the literal `"text/plain"`. -/
def infer_the_mime_type (is_text_fn : List Nat → Bool → Option String)
    (ext : String) (content : List Nat) : MimeResult :=
  if mediaMime ext = "text/plain" then
    match textTableMime ext with
    | some m => .ok (m ++ "; charset=" ++ probedCharset is_text_fn content)
    | none =>
      if probedCharset is_text_fn content = "" then .unimplementedTodo
      else .ok ("text/plain" ++ "; charset=" ++ probedCharset is_text_fn content)
  else
    .ok (mediaMime ext)

/-! ## File route, remote branch (`custom_uri/mod.rs`, `/file/...` handler) -/

/-- Where a resolved `CacheValue` should be served from. -/
inductive ServeFrom where
  | Local
  | Remote (identity : Nat)
deriving DecidableEq, Repr

/-- State of a peer instance in the node-link-manager. -/
inductive InstanceState where
  | Discovered
  | Unavailable
  | Connected (peerId : Nat)
deriving DecidableEq, Repr

/-- Observable outcome of the `/file` route dispatch. -/
inductive FileResp where
  | notFound
  | localServe
  | remoteStream (peerId : Nat)
deriving DecidableEq, Repr

/-- Outcome of the remote branch together with whether a peer-to-peer
`request_file` task was spawned. -/
structure RemoteServeResult where
  resp : FileResp
  fetchInitiated : Bool
deriving DecidableEq, Repr

/-- The `ServeFrom::Remote` branch of the `/file` route: the
`files_over_p2p_flag` check comes first and short-circuits with 404; only
then is the node-link-manager state looked up (`nlmInst = none` models the
`unwrap()` panic when the instance entry is missing). -/
def serveRemote (files_over_p2p_flag : Bool) (nlmInst : Option InstanceState) :
    Option RemoteServeResult :=
  if files_over_p2p_flag = false then
    some ⟨.notFound, false⟩
  else
    match nlmInst with
    | none => none
    | some .Discovered | some .Unavailable => some ⟨.notFound, false⟩
    | some (.Connected peerId) => some ⟨.remoteStream peerId, true⟩

/-- The `match serve_from` dispatch of the `/file` route handler; the local
branch's I/O outcome is abstracted as `localResult`. -/
def fileRouteDispatch (files_over_p2p_flag : Bool) (sf : ServeFrom)
    (nlmInst : Option InstanceState) (localResult : FileResp) :
    Option RemoteServeResult :=
  match sf with
  | .Local => some ⟨localResult, false⟩
  | .Remote _ => serveRemote files_over_p2p_flag nlmInst

/-! ## Jobs progress subscription (`api/jobs.rs`, procedure `progress`)

The subscription stream keeps a per-job `BTreeMap<Uuid, Instant>`; an
incoming `JobProgress` event whose elapsed time since the stored instant is
`<= 1/30 s` is dropped (`continue`), otherwise it is yielded and the
instant reset. The map entry is created on first sight with
`or_insert_with(Instant::now)`, i.e. the arrival time of that event.
Times are integer nanoseconds; `WINDOW` is the nanosecond value of
`Duration::from_secs_f64(1.0 / 30.0)`. -/

structure PEvent where
  jobId : Nat
  time : Nat
deriving DecidableEq, Repr

def WINDOW : Nat := 33333333

/-- One iteration of the debounce loop: returns whether the event is
yielded, and the updated instant map (a total function `jobId →` optional
stored instant). `(st e.jobId).getD e.time` is the instant after
`or_insert_with(Instant::now)` — the stored one, or the current event's
arrival time when the job is seen for the first time; on a yield the
instant is reset to the current arrival time. -/
def debounceStep (st : Nat → Option Nat) (e : PEvent) : Bool × (Nat → Option Nat) :=
  if e.time - (st e.jobId).getD e.time ≤ WINDOW then
    (false, fun j => if j = e.jobId then some ((st e.jobId).getD e.time) else st j)
  else
    (true, fun j => if j = e.jobId then some e.time else st j)

/-- The yielded events of the debounce loop, given a trace of received
`JobProgress` events in arrival order. -/
def debounceEventsAux (st : Nat → Option Nat) : List PEvent → List PEvent
  | [] => []
  | e :: rest =>
    if (debounceStep st e).1 then e :: debounceEventsAux (debounceStep st e).2 rest
    else debounceEventsAux (debounceStep st e).2 rest

/-- Events yielded to one subscriber of the `progress` subscription. -/
def progressYields (trace : List PEvent) : List PEvent :=
  debounceEventsAux (fun _ => none) trace

/-- Positions (0-based indices into the received trace) of yielded events;
the same loop as `debounceEventsAux`, tracking indices. -/
def debounceIdxAux (st : Nat → Option Nat) (k : Nat) : List PEvent → List Nat
  | [] => []
  | e :: rest =>
    if (debounceStep st e).1 then k :: debounceIdxAux (debounceStep st e).2 (k + 1) rest
    else debounceIdxAux (debounceStep st e).2 (k + 1) rest

/-- Indices of events yielded to one subscriber of the `progress`
subscription. -/
def progressYieldIdx (trace : List PEvent) : List Nat :=
  debounceIdxAux (fun _ => none) 0 trace

/-! ## Jobs reports query (`api/jobs.rs`, procedure `reports`)

The query fetches job rows ordered by `date_created` descending, takes 100,
converts them to `JobReport`s, substitutes in-memory reports for running
jobs, groups them in a `HashMap<String, JobGroup>` keyed by the job's group
key (or by `job.id.to_string()` for ungrouped jobs), and finally sorts the
groups by `created_at` descending.

`JobReport` is modelled by `JobRecord` with the fields the query touches;
`get_meta()` (repository code outside `src/`) is modelled by storing its
result — the action name and optional group key — on the record. UUIDs are
`Nat` ids; `DateTime<Utc>` is `Int`; `Utc::now()` is the `now` argument. -/

inductive JobStatus where
  | Queued
  | Running
  | Paused
  | Canceled
  | Failed
  | Completed
  | CompletedWithErrors
deriving DecidableEq, Repr

structure JobRecord where
  id : Nat
  parent_id : Option Nat
  status : JobStatus
  created_at : Option Int
  action_name : String
  group_key : Option String
deriving DecidableEq, Repr

structure JobGroup where
  id : Nat
  action : Option String
  status : JobStatus
  created_at : Int
  jobs : List JobRecord
deriving DecidableEq, Repr

/-- `active_reports_by_id.get(&job.id).unwrap_or(&job)`: the in-memory
report for a running job, defaulting to the persisted report. -/
def reportOf (active : Nat → Option JobRecord) (j : JobRecord) : JobRecord :=
  (active j.id).getD j

/-- Lookup in the grouping map (modelled as an association list; `HashMap`
iteration order is unspecified, so the deterministic insertion order chosen
here is one admissible refinement — the claims only concern lookups,
membership and the final sort). -/
def alistGet? : List (String × JobGroup) → String → Option JobGroup
  | [], _ => none
  | (k, v) :: rest, key => if k = key then some v else alistGet? rest key

/-- Insert-or-replace in the grouping map. -/
def alistSet : List (String × JobGroup) → String → JobGroup → List (String × JobGroup)
  | [], key, v => [(key, v)]
  | (k, v0) :: rest, key, v =>
    if k = key then (key, v) :: rest else (k, v0) :: alistSet rest key v

/-- The `Entry::Vacant` arm: a fresh group seeded with the persisted job's
metadata — note `status` is `job.status` (the persisted status), while the
member pushed is `report` (the possibly in-memory one). -/
def mkGroup (now : Int) (active : Nat → Option JobRecord) (j : JobRecord) : JobGroup :=
  { id := j.parent_id.getD j.id
    action := some j.action_name
    status := j.status
    created_at := j.created_at.getD now
    jobs := [reportOf active j] }

/-- The no-group-key arm: an individual job inserted as its own group under
the key `job.id.to_string()`. -/
def mkSoloGroup (now : Int) (active : Nat → Option JobRecord) (j : JobRecord) : JobGroup :=
  { id := j.id
    action := none
    status := j.status
    created_at := j.created_at.getD now
    jobs := [reportOf active j] }

/-- The `Entry::Occupied` arm: the group's status is overwritten by the
member's report status unless that status is `Paused`, and the report is
pushed to the front of the group's deque. -/
def addMember (active : Nat → Option JobRecord) (g : JobGroup) (j : JobRecord) : JobGroup :=
  let report := reportOf active j
  { g with
      status := if ¬ report.status = JobStatus.Paused then report.status else g.status
      jobs := report :: g.jobs }

/-- The body of the `for job in job_reports` loop. -/
def processJob (now : Int) (active : Nat → Option JobRecord)
    (groups : List (String × JobGroup)) (j : JobRecord) : List (String × JobGroup) :=
  match j.group_key with
  | some gk =>
    match alistGet? groups gk with
    | none => alistSet groups gk (mkGroup now active j)
    | some g => alistSet groups gk (addMember active g j)
  | none => alistSet groups (toString j.id) (mkSoloGroup now active j)

/-- The final `sort_by(|a, b| b.created_at.cmp(&a.created_at))` relation:
groups ordered by `created_at` descending. -/
def groupsRel (a b : JobGroup) : Prop := b.created_at ≤ a.created_at

instance : DecidableRel groupsRel := fun a b =>
  inferInstanceAs (Decidable (b.created_at ≤ a.created_at))

instance : IsTotal JobGroup groupsRel :=
  ⟨fun a b => le_total b.created_at a.created_at⟩

instance : IsTrans JobGroup groupsRel :=
  ⟨fun _ _ _ hab hbc => le_trans hbc hab⟩

/-- The `reports` query applied to the already-fetched report list `l`
(given in the database's `date_created` descending order). -/
def reports (now : Int) (active : Nat → Option JobRecord) (l : List JobRecord) :
    List JobGroup :=
  List.insertionSort groupsRel ((l.foldl (processJob now active) []).map Prod.snd)

/-- The full query pipeline: the database delivers the persisted rows in
`date_created` descending order (`db`), of which `.take(100)` are fetched
before grouping. -/
def reportsQuery (now : Int) (active : Nat → Option JobRecord) (db : List JobRecord) :
    List JobGroup :=
  reports now active (db.take 100)

/-- The evolution of a single group cell under the loop, extracted for
reasoning: `none` is a still-vacant entry, `some g` an occupied one. -/
def stepGroups (now : Int) (active : Nat → Option JobRecord) :
    Option JobGroup → List JobRecord → Option JobGroup
  | og, [] => og
  | og, j :: rest =>
    match og with
    | none => stepGroups now active (some (mkGroup now active j)) rest
    | some g => stepGroups now active (some (addMember active g j)) rest

/-- The creation timestamp the query compares by: `created_at.unwrap_or(now)`. -/
def createdKey (now : Int) (j : JobRecord) : Int := j.created_at.getD now

/-! ## Jobs clearAll mutation (`api/jobs.rs`, procedure `clearAll`) -/

/-- A persisted `job` table row as far as `clearAll` is concerned: the
`status` column is nullable. -/
structure JobRow where
  id : Nat
  status : Option JobStatus
deriving DecidableEq, Repr

/-- The `or![...]` filter of `clearAll`'s `delete_many`: rows whose status
equals one of `Canceled`, `Failed`, `Completed`, `CompletedWithErrors`. -/
def clearAllFilter (r : JobRow) : Bool :=
  r.status == some JobStatus.Canceled
    || r.status == some JobStatus.Failed
    || r.status == some JobStatus.Completed
    || r.status == some JobStatus.CompletedWithErrors

/-- The `clearAll` mutation on the node state, modelled as the persisted
job table plus the ids of in-memory running jobs: `delete_many` removes the
matching rows, and nothing else is touched. -/
def clearAll (db : List JobRow) (runningJobs : List Nat) : List JobRow × List Nat :=
  (db.filter (fun r => ¬ clearAllFilter r), runningJobs)

/-- From the spec: the terminal statuses are `Completed`,
`CompletedWithErrors`, `Canceled`, `Failed`. -/
def isTerminal : JobStatus → Bool
  | .Completed | .CompletedWithErrors | .Canceled | .Failed => true
  | _ => false

/-! ## Mobile request dispatcher (`apps/mobile/.../core/src/lib.rs`,
`handle_core_msg`)

The JSON machinery (`serde_json::from_str` / `from_value`) and the router
(`handle_json_rpc`) are external collaborators; they are passed in as
functions. `handle_core_msg` parses the payload, decodes either an array of
requests or a single request wrapped in a one-element vector, runs all
requests (`join_all` preserves order) and collects the non-`None`
responses; a decode failure invokes the callback with `Err(query)` without
running anything. -/

/-- The decode step: `from_str::<Value>(&query).and_then(|v| ...)`. -/
def decodeBatch {JValue Request : Type}
    (from_str : String → Option JValue) (is_array : JValue → Bool)
    (decodeMany : JValue → Option (List Request))
    (decodeOne : JValue → Option Request) (query : String) : Option (List Request) :=
  (from_str query).bind fun v =>
    if is_array v then decodeMany v else (decodeOne v).map (fun r => [r])

/-- What `handle_core_msg` did: which requests reached `handle_json_rpc`,
and the value handed to the callback (`Err` carries the raw payload,
`Ok` the collected responses, serialization elided). -/
structure HandleCoreMsgOut (Request Response : Type) where
  executed : List Request
  callback : Except String (List Response)

/-- Model of `handle_core_msg` (node initialization elided: it does not
affect decoding or dispatch). -/
def handle_core_msg {JValue Request Response : Type}
    (from_str : String → Option JValue) (is_array : JValue → Bool)
    (decodeMany : JValue → Option (List Request))
    (decodeOne : JValue → Option Request)
    (handle_json_rpc : Request → Option Response)
    (query : String) : HandleCoreMsgOut Request Response :=
  match decodeBatch from_str is_array decodeMany decodeOne query with
  | none => ⟨[], .error query⟩
  | some reqs => ⟨reqs, .ok (reqs.filterMap handle_json_rpc)⟩

/-! ## Theorems -/

/-! ### Association-list and grouping-fold lemmas -/

theorem alistGet?_alistSet_self (m : List (String × JobGroup)) (k : String) (v : JobGroup) :
    alistGet? (alistSet m k v) k = some v := by
  induction m with
  | nil =>
    rw [alistSet, alistGet?, if_pos rfl]
  | cons p rest ih =>
    obtain ⟨k0, v0⟩ := p
    rw [alistSet]
    by_cases hk : k0 = k
    · rw [if_pos hk, alistGet?, if_pos rfl]
    · rw [if_neg hk, alistGet?, if_neg hk]
      exact ih

theorem alistGet?_alistSet_other (m : List (String × JobGroup)) (k k' : String)
    (v : JobGroup) (h : k' ≠ k) :
    alistGet? (alistSet m k v) k' = alistGet? m k' := by
  have hne : ¬ k = k' := fun hh => h hh.symm
  induction m with
  | nil =>
    show alistGet? ((k, v) :: []) k' = alistGet? [] k'
    simp only [alistGet?]
    rw [if_neg hne]
  | cons p rest ih =>
    obtain ⟨k0, v0⟩ := p
    rw [alistSet]
    by_cases hk : k0 = k
    · rw [if_pos hk]
      show alistGet? ((k, v) :: rest) k' = alistGet? ((k0, v0) :: rest) k'
      simp only [alistGet?]
      rw [if_neg hne, if_neg (fun hh => hne (hk.symm.trans hh))]
    · rw [if_neg hk]
      show alistGet? ((k0, v0) :: alistSet rest k v) k' = alistGet? ((k0, v0) :: rest) k'
      simp only [alistGet?]
      by_cases hk' : k0 = k'
      · rw [if_pos hk', if_pos hk']
      · rw [if_neg hk', if_neg hk', ih]

theorem alistGet?_mem (m : List (String × JobGroup)) (k : String) (v : JobGroup)
    (h : alistGet? m k = some v) : (k, v) ∈ m := by
  induction m with
  | nil => exact absurd h (by rw [alistGet?]; exact fun hh => Option.noConfusion hh)
  | cons p rest ih =>
    obtain ⟨k0, v0⟩ := p
    rw [alistGet?] at h
    by_cases hk : k0 = k
    · rw [if_pos hk] at h
      injection h with h
      subst hk
      subst h
      exact List.mem_cons_self _ _
    · rw [if_neg hk] at h
      exact List.mem_cons_of_mem _ (ih h)

theorem mem_alistSet (m : List (String × JobGroup)) (k : String) (v : JobGroup)
    (p : String × JobGroup) (h : p ∈ alistSet m k v) : p = (k, v) ∨ p ∈ m := by
  induction m with
  | nil =>
    rw [alistSet] at h
    rcases List.mem_cons.mp h with h1 | h1
    · exact Or.inl h1
    · exact absurd h1 (List.not_mem_nil p)
  | cons q rest ih =>
    obtain ⟨k0, v0⟩ := q
    rw [alistSet] at h
    by_cases hk : k0 = k
    · rw [if_pos hk] at h
      rcases List.mem_cons.mp h with h1 | h1
      · exact Or.inl h1
      · exact Or.inr (List.mem_cons_of_mem _ h1)
    · rw [if_neg hk] at h
      rcases List.mem_cons.mp h with h1 | h1
      · exact Or.inr (h1 ▸ List.mem_cons_self _ _)
      · rcases ih h1 with h2 | h2
        · exact Or.inl h2
        · exact Or.inr (List.mem_cons_of_mem _ h2)

/-- The grouping fold, observed at one key: it behaves as `stepGroups` on
the input restricted to that key, provided no ungrouped job's id string
collides with the key. -/
theorem alistGet?_foldl_processJob (now : Int) (active : Nat → Option JobRecord) :
    ∀ (l : List JobRecord) (m : List (String × JobGroup)) (gk : String),
      (∀ j ∈ l, j.group_key = none → toString j.id ≠ gk) →
      alistGet? (l.foldl (processJob now active) m) gk
        = stepGroups now active (alistGet? m gk)
            (l.filter (fun j => j.group_key == some gk)) := by
  intro l
  induction l with
  | nil =>
    intro m gk _
    rfl
  | cons j rest ih =>
    intro m gk hside
    have hrest : ∀ j' ∈ rest, j'.group_key = none → toString j'.id ≠ gk := fun j' hj' =>
      hside j' (List.mem_cons_of_mem _ hj')
    rw [List.foldl_cons, List.filter_cons]
    cases hgk : j.group_key with
    | none =>
      rw [if_neg (by simp [hgk])]
      have hpj : processJob now active m j = alistSet m (toString j.id) (mkSoloGroup now active j) := by
        simp only [processJob, hgk]
      rw [hpj, ih _ _ hrest,
        alistGet?_alistSet_other _ _ _ _
          (fun hh => (hside j (List.mem_cons_self _ _) hgk) hh.symm)]
    | some gk' =>
      by_cases hk : gk' = gk
      · subst hk
        rw [if_pos (by simp [hgk])]
        cases hget : alistGet? m gk' with
        | none =>
          have hpj : processJob now active m j
              = alistSet m gk' (mkGroup now active j) := by
            simp only [processJob, hgk, hget]
          rw [hpj, ih _ _ hrest, alistGet?_alistSet_self]
          rfl
        | some g =>
          have hpj : processJob now active m j
              = alistSet m gk' (addMember active g j) := by
            simp only [processJob, hgk, hget]
          rw [hpj, ih _ _ hrest, alistGet?_alistSet_self]
          rfl
      · rw [if_neg (by simp [hgk, hk])]
        cases hget : alistGet? m gk' with
        | none =>
          have hpj : processJob now active m j
              = alistSet m gk' (mkGroup now active j) := by
            simp only [processJob, hgk, hget]
          rw [hpj, ih _ _ hrest,
            alistGet?_alistSet_other _ _ _ _ (fun hh => hk hh.symm)]
        | some g =>
          have hpj : processJob now active m j
              = alistSet m gk' (addMember active g j) := by
            simp only [processJob, hgk, hget]
          rw [hpj, ih _ _ hrest,
            alistGet?_alistSet_other _ _ _ _ (fun hh => hk hh.symm)]

theorem stepGroups_some (now : Int) (active : Nat → Option JobRecord) :
    ∀ (ms : List JobRecord) (g : JobGroup),
      stepGroups now active (some g) ms = some (ms.foldl (addMember active) g) := by
  intro ms
  induction ms with
  | nil => intro g; rfl
  | cons j rest ih =>
    intro g
    rw [stepGroups, List.foldl_cons]
    exact ih _

theorem getLast?_cons_of_ne_nil {α : Type} (a : α) (l : List α) (h : l ≠ []) :
    (a :: l).getLast? = l.getLast? := by
  cases l with
  | nil => exact absurd rfl h
  | cons b t => exact List.getLast?_cons_cons

/-- Status of a group after folding members in: the last non-`Paused`
report status wins; if every folded-in member is `Paused`, the seed group's
status remains. -/
theorem foldl_addMember_status (active : Nat → Option JobRecord) :
    ∀ (ms : List JobRecord) (g : JobGroup),
      (ms.foldl (addMember active) g).status
        = ((ms.map (fun j => (reportOf active j).status)).filter
            (fun s => ¬ s = JobStatus.Paused)).getLast?.getD g.status := by
  intro ms
  induction ms with
  | nil => intro g; rfl
  | cons j rest ih =>
    intro g
    rw [List.foldl_cons, List.map_cons, List.filter_cons, ih]
    by_cases hp : (reportOf active j).status = JobStatus.Paused
    · rw [if_neg (by simp [hp])]
      have : (addMember active g j).status = g.status := by
        rw [addMember]
        simp [hp]
      rw [this]
    · rw [if_pos (by simp [hp])]
      have hstat : (addMember active g j).status = (reportOf active j).status := by
        rw [addMember]
        simp [hp]
      rw [hstat]
      cases hfr : (rest.map (fun j => (reportOf active j).status)).filter
          (fun s => ¬ s = JobStatus.Paused) with
      | nil => rfl
      | cons b t =>
        rw [List.getLast?_cons_cons]
        cases hx : (b :: t).getLast? with
        | none => exact absurd (List.getLast?_eq_none_iff.mp hx) (by simp)
        | some x => rfl

/-- Every member of every group produced by the fold satisfies any
predicate satisfied by the substituted reports of the input jobs. -/
theorem foldl_processJob_members (now : Int) (active : Nat → Option JobRecord)
    (Q : JobRecord → Prop) :
    ∀ (l : List JobRecord) (acc : List (String × JobGroup)),
      (∀ j ∈ l, Q (reportOf active j)) →
      (∀ p ∈ acc, ∀ m ∈ p.2.jobs, Q m) →
      ∀ p ∈ l.foldl (processJob now active) acc, ∀ m ∈ p.2.jobs, Q m := by
  intro l
  induction l with
  | nil =>
    intro acc _ hacc
    exact hacc
  | cons j rest ih =>
    intro acc hl hacc
    rw [List.foldl_cons]
    refine ih _ (fun j' hj' => hl j' (List.mem_cons_of_mem _ hj')) ?_
    intro p hp m hm
    have hQj : Q (reportOf active j) := hl j (List.mem_cons_self _ _)
    cases hgk : j.group_key with
    | none =>
      simp only [processJob, hgk] at hp
      rcases mem_alistSet _ _ _ _ hp with h1 | h1
      · subst h1
        rcases List.mem_singleton.mp hm with rfl
        exact hQj
      · exact hacc p h1 m hm
    | some gk =>
      cases hget : alistGet? acc gk with
      | none =>
        simp only [processJob, hgk, hget] at hp
        rcases mem_alistSet _ _ _ _ hp with h1 | h1
        · subst h1
          rcases List.mem_singleton.mp hm with rfl
          exact hQj
        · exact hacc p h1 m hm
      | some g =>
        simp only [processJob, hgk, hget] at hp
        rcases mem_alistSet _ _ _ _ hp with h1 | h1
        · subst h1
          rcases List.mem_cons.mp hm with rfl | h2
          · exact hQj
          · exact hacc (gk, g) (alistGet?_mem _ _ _ hget) m h2
        · exact hacc p h1 m hm

/-- C1: the claim states that every request whose path escapes the
thumbnails directory after canonicalization gets a 404. The code's own
comment says the guard exists to "Prevent directory traversal attacks", but
the guard is a lexical `starts_with` on the un-canonicalized joined path,
which keeps `..` components: with `data_directory = /data`, the request
`/thumbnail/../escape.webp` passes the guard and the handler opens
`/data/thumbnails/../escape.webp`, i.e. `/data/escape.webp`, which is
outside the thumbnails directory. The code contradicts its stated intent;
this is a code bug. -/
theorem thumbnail_guard_admits_dotdot_escape :
    thumbnailHandler ⟨true, ["data"]⟩ ⟨false, ["..", "escape.webp"]⟩
        = .serveFile ⟨true, ["data", "thumbnails", "..", "escape.webp"]⟩
      ∧ (RPath.canon ⟨true, ["data", "thumbnails", "..", "escape.webp"]⟩).starts_with
          ((RPath.join ⟨true, ["data"]⟩ ⟨false, ["thumbnails"]⟩)) = false := by
  decide

/-- C5 counterexample: the claim says MIME inference "never falls through to
a binary catch-all and always returns a MIME string" for extensions outside
the media table. But for an unknown extension whose probed bytes are not
detected as text (empty charset), the code reaches `todo!()` and returns no
MIME string at all. Concrete input: extension `xyz`, file content the four
bytes `00 00 00 00`. -/
theorem infer_mime_unknown_binary_cx :
    infer_the_mime_type is_text "xyz" [0, 0, 0, 0] = .unimplementedTodo
      ∧ ∀ s, MimeResult.unimplementedTodo ≠ .ok s := by
  exact ⟨by decide, fun s h => MimeResult.noConfusion h⟩

/-- C5 amended: for every extension not in the known-media table, the
handler reads at most 10 KiB of the file and runs the text-detection
heuristic; if the extension is in the browser text table it returns that
`text/*` type with the detected charset attached, otherwise if a charset is
detected it returns `text/plain` with that charset; but when no charset is
detected and the extension is unknown the code reaches an unimplemented
`todo!()` and returns no MIME string ("unknown-binary" open question). -/
theorem infer_mime_unknown_ext_probe
    (is_text_fn : List Nat → Bool → Option String) (ext : String) (content : List Nat)
    (h : mediaMime ext = "text/plain") :
    (probeBuf content).length ≤ MAX_TEXT_READ_LENGTH
      ∧ ((∃ m cs, infer_the_mime_type is_text_fn ext content = .ok (m ++ "; charset=" ++ cs)
            ∧ (textTableMime ext = some m ∨ m = "text/plain"))
        ∨ (infer_the_mime_type is_text_fn ext content = .unimplementedTodo
            ∧ textTableMime ext = none
            ∧ probedCharset is_text_fn content = "")) := by
  constructor
  · simp [probeBuf, min_comm]
  · unfold infer_the_mime_type
    rw [if_pos h]
    cases htab : textTableMime ext with
    | some m =>
      exact Or.inl ⟨m, _, rfl, Or.inl rfl⟩
    | none =>
      by_cases hcs : probedCharset is_text_fn content = ""
      · exact Or.inr ⟨by rw [if_pos hcs], rfl, hcs⟩
      · exact Or.inl ⟨"text/plain", _, by rw [if_neg hcs], Or.inr rfl⟩

/-- C5 witness: the amended theorem applied at extension `xyz` and content
`[65, 66]` with the modelled heuristic. -/
theorem infer_mime_unknown_ext_probe_witness :
    (probeBuf [65, 66]).length ≤ MAX_TEXT_READ_LENGTH
      ∧ ((∃ m cs, infer_the_mime_type is_text "xyz" [65, 66] = .ok (m ++ "; charset=" ++ cs)
            ∧ (textTableMime "xyz" = some m ∨ m = "text/plain"))
        ∨ (infer_the_mime_type is_text "xyz" [65, 66] = .unimplementedTodo
            ∧ textTableMime "xyz" = none
            ∧ probedCharset is_text [65, 66] = "")) :=
  infer_mime_unknown_ext_probe is_text "xyz" [65, 66] (by decide)

/-- C6: when the resolved `CacheValue` has `serve_from = Remote` and the
`files_over_p2p` flag is off, the `/file` route returns 404 before touching
the node-link-manager: no peer-to-peer fetch is initiated (and the `unwrap`
on the instance entry is never reached, whatever its state). -/
theorem file_remote_flag_off_not_found (identity : Nat)
    (nlmInst : Option InstanceState) (localResult : FileResp) :
    fileRouteDispatch false (.Remote identity) nlmInst localResult
      = some ⟨.notFound, false⟩ := by
  rfl

/-- C8: `clearAll` deletes from the persistent store exactly the rows whose
status is a terminal status (`Canceled`, `Failed`, `Completed`,
`CompletedWithErrors`, per the spec's terminal set), keeps every other row
(including rows with a NULL status), and leaves the in-memory running jobs
untouched. -/
theorem clearAll_deletes_exactly_terminal (db : List JobRow) (runningJobs : List Nat)
    (r : JobRow) :
    (r ∈ (clearAll db runningJobs).1
        ↔ r ∈ db ∧ ¬ ∃ s, r.status = some s ∧ isTerminal s = true)
      ∧ (clearAll db runningJobs).2 = runningJobs := by
  refine ⟨?_, rfl⟩
  have hchar : clearAllFilter r = true ↔ ∃ s, r.status = some s ∧ isTerminal s = true := by
    cases hs : r.status with
    | none => simp [clearAllFilter, hs]
    | some s => cases s <;> simp [clearAllFilter, hs, isTerminal]
  rw [clearAll, List.mem_filter]
  simp only [decide_not, Bool.not_eq_true', decide_eq_false_iff_not]
  rw [not_iff_not.mpr hchar]

/-- C7: `handle_core_msg` decodes the payload as one request object or an
array of request objects. If decoding fails, the whole batch fails: no
request is executed and the callback receives an error carrying exactly the
original payload string. If the payload decodes as a single (non-array)
request object, it is processed as a batch of one and the callback receives
the array of collected responses. -/
theorem handle_core_msg_batch_semantics {JValue Request Response : Type}
    (from_str : String → Option JValue) (is_array : JValue → Bool)
    (decodeMany : JValue → Option (List Request))
    (decodeOne : JValue → Option Request)
    (handle_json_rpc : Request → Option Response) (query : String) :
    (decodeBatch from_str is_array decodeMany decodeOne query = none →
        (handle_core_msg from_str is_array decodeMany decodeOne handle_json_rpc query).executed
            = []
          ∧ (handle_core_msg from_str is_array decodeMany decodeOne handle_json_rpc
              query).callback = .error query)
      ∧ (∀ v r, from_str query = some v → is_array v = false → decodeOne v = some r →
          (handle_core_msg from_str is_array decodeMany decodeOne handle_json_rpc
              query).executed = [r]
            ∧ (handle_core_msg from_str is_array decodeMany decodeOne handle_json_rpc
                query).callback = .ok (handle_json_rpc r).toList) := by
  constructor
  · intro hfail
    rw [handle_core_msg, hfail]
    exact ⟨rfl, rfl⟩
  · intro v r hv harr hone
    have hdec : decodeBatch from_str is_array decodeMany decodeOne query = some [r] := by
      rw [decodeBatch, hv]
      simp [harr, hone]
    rw [handle_core_msg, hdec]
    refine ⟨rfl, ?_⟩
    show Except.ok ([r].filterMap handle_json_rpc) = _
    rw [List.filterMap]
    cases handle_json_rpc r <;> rfl

/-- C7 witness: the theorem applied twice at concrete instantiations — once
to a payload that fails to parse, once to a payload that decodes as a
single request executed as a batch of one. -/
theorem handle_core_msg_batch_semantics_witness :
    ((@handle_core_msg Unit Nat Nat
          (fun _ => none) (fun _ => false) (fun _ => none) (fun _ => none)
          (fun r => some (r + 1)) "bad").executed = []
        ∧ (@handle_core_msg Unit Nat Nat
            (fun _ => none) (fun _ => false) (fun _ => none) (fun _ => none)
            (fun r => some (r + 1)) "bad").callback = .error "bad")
      ∧ ((handle_core_msg (fun _ => some ()) (fun _ => false) (fun _ => none)
            (fun _ => some 7) (fun r => some (r + 1)) "q").executed = [7]
          ∧ (handle_core_msg (fun _ => some ()) (fun _ => false) (fun _ => none)
              (fun _ => some 7) (fun r => some (r + 1)) "q").callback = .ok [8]) :=
  ⟨(handle_core_msg_batch_semantics (fun _ => none) (fun _ => false) (fun _ => none)
      (fun _ => none) (fun r => some (r + 1)) "bad").1 rfl,
   (handle_core_msg_batch_semantics (fun _ => some ()) (fun _ => false) (fun _ => none)
      (fun _ => some 7) (fun r => some (r + 1)) "q").2 () 7 rfl rfl rfl⟩

/-- C2 counterexample: the claim says the final update at a job's terminal
transition is always delivered. The subscription loop has no terminal
special case: with events for job 7 at t = 0 ns, t = 100000000 ns and a
final terminal update at t = 110000000 ns, only the middle event is
yielded — the terminal update falls inside the 1/30 s window of the second
event and is dropped. -/
theorem progress_terminal_event_dropped_cx :
    progressYields [⟨7, 0⟩, ⟨7, 100000000⟩, ⟨7, 110000000⟩] = [⟨7, 100000000⟩]
      ∧ (⟨7, 110000000⟩ : PEvent) ∉
          progressYields [⟨7, 0⟩, ⟨7, 100000000⟩, ⟨7, 110000000⟩] := by
  decide

/-- C2 amended: for every job and every subscriber of the `progress`
subscription, consecutive delivered events of that job are separated by
more than the debounce duration `WINDOW` (the nanosecond value of
`Duration::from_secs_f64(1.0 / 30.0)`), which since arrival times are whole
nanoseconds means a gap of at least 1/30 s, hence at most one delivery per
job per 1/30-second window and at most 30 per second; in-window events are
dropped, not queued (the delivered list is a sublist of the received
trace); and the final update at a job's terminal transition is NOT
special-cased — it is dropped like any other event when it falls inside the
window. -/
theorem progress_debounce_rate_cap (trace : List PEvent) (j : Nat) :
    List.Chain' (fun a b => a.time + WINDOW < b.time)
        ((progressYields trace).filter (fun e => e.jobId == j))
      ∧ (progressYields trace).Sublist trace := by
  constructor
  · have aux : ∀ (l : List PEvent) (st : Nat → Option Nat),
        List.Chain' (fun a b => a.time + WINDOW < b.time)
            ((debounceEventsAux st l).filter (fun e => e.jobId == j))
          ∧ (∀ t, st j = some t →
              ∀ e0 ∈ ((debounceEventsAux st l).filter (fun e => e.jobId == j)).head?,
                t + WINDOW < e0.time) := by
      intro l
      induction l with
      | nil =>
        intro st
        refine ⟨List.chain'_nil, ?_⟩
        intro t _ e0 h0
        simp [debounceEventsAux] at h0
      | cons e rest ih =>
        intro st
        rw [debounceEventsAux]
        by_cases hy : (debounceStep st e).1
        · -- yielded: the instant test failed, i.e. the gap exceeds WINDOW
          have hcond : ¬ (e.time - (st e.jobId).getD e.time ≤ WINDOW) := by
            intro hc
            rw [debounceStep, if_pos hc] at hy
            exact Bool.noConfusion hy
          have hst2 : (debounceStep st e).2
              = fun j' => if j' = e.jobId then some e.time else st j' := by
            rw [debounceStep, if_neg hcond]
          rw [if_pos hy, List.filter_cons]
          by_cases hj : (e.jobId == j) = true
          · have heq : e.jobId = j := by simpa using hj
            rw [if_pos hj]
            have hupd : (debounceStep st e).2 j = some e.time := by
              rw [hst2]
              exact if_pos heq.symm
            refine ⟨List.chain'_cons'.mpr ⟨?_, (ih _).1⟩, ?_⟩
            · intro b hb
              exact (ih _).2 e.time hupd b hb
            · intro t ht e0 h0
              rw [List.head?_cons, Option.mem_some_iff] at h0
              subst h0
              rw [heq, ht] at hcond
              simp only [Option.getD_some] at hcond
              omega
          · rw [if_neg hj]
            have hne : j ≠ e.jobId := by
              intro hh
              exact hj (by simp [hh])
            have hupd : (debounceStep st e).2 j = st j := by
              rw [hst2]
              exact if_neg hne
            refine ⟨(ih _).1, ?_⟩
            intro t ht
            exact (ih _).2 t (hupd.trans ht)
        · -- dropped: the stored instant is unchanged for every job
          have hcond : e.time - (st e.jobId).getD e.time ≤ WINDOW := by
            by_contra hc
            rw [debounceStep, if_neg hc] at hy
            exact hy rfl
          have hst2 : (debounceStep st e).2
              = fun j' => if j' = e.jobId then some ((st e.jobId).getD e.time) else st j' := by
            rw [debounceStep, if_pos hcond]
          rw [if_neg hy]
          refine ⟨(ih _).1, ?_⟩
          intro t ht
          have hupd : (debounceStep st e).2 j = some t := by
            rw [hst2]
            show (if j = e.jobId then some ((st e.jobId).getD e.time) else st j) = some t
            by_cases hje : j = e.jobId
            · rw [if_pos hje, ← hje, ht]
              rfl
            · rw [if_neg hje]
              exact ht
          exact (ih _).2 t hupd
    exact (aux trace (fun _ => none)).1
  · have subl : ∀ (l : List PEvent) (st : Nat → Option Nat),
        (debounceEventsAux st l).Sublist l := by
      intro l
      induction l with
      | nil => intro st; simp [debounceEventsAux]
      | cons e rest ih =>
        intro st
        rw [debounceEventsAux]
        by_cases hy : (debounceStep st e).1
        · rw [if_pos hy]
          exact List.Sublist.cons₂ e (ih _)
        · rw [if_neg hy]
          exact List.Sublist.cons e (ih _)
    exact subl trace _

/-- C9: the first `JobProgress` event for a job id is never yielded to the
subscriber: the per-job instant is created by `or_insert_with(Instant::now)`
at the arrival time of that first event, so its elapsed time is 0, the
`elapsed() <= 1/30 s` test succeeds and the event is dropped. Stated for
any trace position whose job id does not occur earlier in the trace. -/
theorem progress_first_event_dropped (pre : List PEvent) (e : PEvent) (post : List PEvent)
    (h : ∀ e' ∈ pre, e'.jobId ≠ e.jobId) :
    pre.length ∉ progressYieldIdx (pre ++ e :: post) := by
  have hge : ∀ (l : List PEvent) (st : Nat → Option Nat) (k : Nat),
      ∀ i ∈ debounceIdxAux st k l, k ≤ i := by
    intro l
    induction l with
    | nil => intro st k i hi; simp [debounceIdxAux] at hi
    | cons a rest ih =>
      intro st k i hi
      rw [debounceIdxAux] at hi
      by_cases hy : (debounceStep st a).1
      · rw [if_pos hy] at hi
        rcases List.mem_cons.mp hi with h1 | h1
        · omega
        · have := ih _ _ _ h1; omega
      · rw [if_neg hy] at hi
        have := ih _ _ _ hi; omega
  have key : ∀ (pre : List PEvent) (st : Nat → Option Nat) (k : Nat),
      (∀ e' ∈ pre, e'.jobId ≠ e.jobId) → st e.jobId = none →
      (k + pre.length) ∉ debounceIdxAux st k (pre ++ e :: post) := by
    intro pre
    induction pre with
    | nil =>
      intro st k _ hnone
      simp only [List.nil_append, List.length_nil, Nat.add_zero]
      rw [debounceIdxAux]
      have hstep : (debounceStep st e).1 = false := by
        simp [debounceStep, hnone]
      rw [if_neg (by simp [hstep])]
      intro hmem
      have := hge _ _ _ _ hmem
      omega
    | cons a rest ih =>
      intro st k hpre hnone
      simp only [List.cons_append, List.length_cons]
      rw [debounceIdxAux]
      have hna : a.jobId ≠ e.jobId := hpre a (List.mem_cons_self a rest)
      have hne : e.jobId ≠ a.jobId := fun hh => hna hh.symm
      have hnone' : (debounceStep st a).2 e.jobId = none := by
        simp only [debounceStep]
        by_cases hc : a.time - (st a.jobId).getD a.time ≤ WINDOW
        · rw [if_pos hc]
          show (if e.jobId = a.jobId then _ else st e.jobId) = none
          rw [if_neg hne]
          exact hnone
        · rw [if_neg hc]
          show (if e.jobId = a.jobId then _ else st e.jobId) = none
          rw [if_neg hne]
          exact hnone
      have hrest : ∀ e' ∈ rest, e'.jobId ≠ e.jobId := fun e' he' =>
        hpre e' (List.mem_cons_of_mem a he')
      have ihres := ih (debounceStep st a).2 (k + 1) hrest hnone'
      have hidx : k + 1 + rest.length = k + (rest.length + 1) := by omega
      rw [hidx] at ihres
      by_cases hy : (debounceStep st a).1
      · rw [if_pos hy]
        intro hmem
        rcases List.mem_cons.mp hmem with h1 | h1
        · omega
        · exact ihres h1
      · rw [if_neg hy]
        exact ihres
  have := key pre (fun _ => none) 0 h rfl
  simpa [progressYieldIdx] using this

/-- C9 witness: in the trace `[(job 1, t=0), (job 2, t=0), (job 2, t=5e7)]`
the event at position 1 is the first event of job 2 and is not yielded. -/
theorem progress_first_event_dropped_witness :
    (∀ e' ∈ [(⟨1, 0⟩ : PEvent)], e'.jobId ≠ (⟨2, 0⟩ : PEvent).jobId)
      ∧ ([(⟨1, 0⟩ : PEvent)]).length ∉
          progressYieldIdx ([⟨1, 0⟩] ++ (⟨2, 0⟩ : PEvent) :: [⟨2, 50000000⟩]) :=
  ⟨by decide, progress_first_event_dropped [⟨1, 0⟩] ⟨2, 0⟩ [⟨2, 50000000⟩] (by decide)⟩

/-- C3 counterexample: the claim says a group's status equals the status of
the most recently created non-`Paused` member. Concrete input (fetched in
`date_created` descending order): a `Running` job created at t = 2 and a
`Completed` job created at t = 1, same group key. The most recently created
non-`Paused` member is the `Running` one, but the loop overwrites the group
status with every later-iterated (older) non-`Paused` member, so the query
returns `Completed`. -/
theorem reports_group_status_cx :
    (reports 0 (fun _ => none)
          [⟨2, none, JobStatus.Running, some 2, "act", some "g"⟩,
           ⟨1, none, JobStatus.Completed, some 1, "act", some "g"⟩]).map
        (fun g => g.status) = [JobStatus.Completed]
      ∧ JobStatus.Completed ≠ JobStatus.Running := by
  decide

/-- C3 amended: for a group key, list the matching jobs in the fetched
(`date_created` descending) order as `m0 :: rest` (`m0` the most recent).
The group's status is the status of the LAST non-`Paused` member of `rest`
in that order — i.e. the oldest non-`Paused` member among all but the most
recent — taking each such member's in-memory report status; if every member
of `rest` is `Paused`, the status is `m0`'s persisted status (even when an
in-memory report for `m0` exists, and even when that status is `Paused`).
In particular, if all members are `Paused` the group is `Paused`. (The side
condition rules out an ungrouped job whose id string collides with the
group key.) -/
theorem reports_group_status_char (now : Int) (active : Nat → Option JobRecord)
    (l : List JobRecord) (gk : String) (m0 : JobRecord) (rest : List JobRecord)
    (hside : ∀ j ∈ l, j.group_key = none → toString j.id ≠ gk)
    (hfilter : l.filter (fun j => j.group_key == some gk) = m0 :: rest) :
    ∃ g, alistGet? (l.foldl (processJob now active) []) gk = some g
      ∧ g ∈ reports now active l
      ∧ g.status = ((rest.map (fun j => (reportOf active j).status)).filter
          (fun s => ¬ s = JobStatus.Paused)).getLast?.getD m0.status := by
  have hchar := alistGet?_foldl_processJob now active l [] gk hside
  rw [hfilter] at hchar
  have hchar2 : alistGet? (l.foldl (processJob now active) []) gk
      = some (rest.foldl (addMember active) (mkGroup now active m0)) := by
    rw [hchar]
    show stepGroups now active (some (mkGroup now active m0)) rest = _
    exact stepGroups_some now active rest _
  refine ⟨_, hchar2, ?_, ?_⟩
  · have hmem := alistGet?_mem _ _ _ hchar2
    have hmem2 : rest.foldl (addMember active) (mkGroup now active m0)
        ∈ (l.foldl (processJob now active) []).map Prod.snd :=
      List.mem_map_of_mem Prod.snd hmem
    rw [reports]
    exact ((List.perm_insertionSort groupsRel _).mem_iff).mpr hmem2
  · rw [foldl_addMember_status]
    rfl

/-- C3 witness: the amended theorem applied to the two-job input of the
counterexample — the group's status is the older `Completed` member's
status, not the newer `Running` one's. -/
theorem reports_group_status_char_witness :
    ∃ g, alistGet?
          ([(⟨2, none, JobStatus.Running, some 2, "act", some "g"⟩ : JobRecord),
            ⟨1, none, JobStatus.Completed, some 1, "act", some "g"⟩].foldl
            (processJob 0 (fun _ => none)) []) "g" = some g
      ∧ g ∈ reports 0 (fun _ => none)
          [⟨2, none, JobStatus.Running, some 2, "act", some "g"⟩,
           ⟨1, none, JobStatus.Completed, some 1, "act", some "g"⟩]
      ∧ g.status = (([(⟨1, none, JobStatus.Completed, some 1, "act", some "g"⟩ : JobRecord)].map
            (fun j => (reportOf (fun _ => none) j).status)).filter
          (fun s => ¬ s = JobStatus.Paused)).getLast?.getD
          (⟨2, none, JobStatus.Running, some 2, "act", some "g"⟩ : JobRecord).status :=
  reports_group_status_char 0 (fun _ => none)
    [⟨2, none, JobStatus.Running, some 2, "act", some "g"⟩,
     ⟨1, none, JobStatus.Completed, some 1, "act", some "g"⟩]
    "g" ⟨2, none, JobStatus.Running, some 2, "act", some "g"⟩
    [⟨1, none, JobStatus.Completed, some 1, "act", some "g"⟩]
    (by decide) (by decide)

/-- C4 counterexample: the claim says that within every group the member
reports are ordered most-recent-first. With two jobs of one group fetched
in descending creation order (created at t = 2 then t = 1), the loop
iterates newest first and pushes each member to the FRONT of the deque, so
the returned group lists members oldest-first: `[some 1, some 2]`, not
most-recent-first. -/
theorem reports_group_order_cx :
    (reports 0 (fun _ => none)
          [⟨2, none, JobStatus.Running, some 2, "act", some "g"⟩,
           ⟨1, none, JobStatus.Completed, some 1, "act", some "g"⟩]).map
        (fun g => g.jobs.map (fun m => m.created_at)) = [[some 1, some 2]]
      ∧ ¬ ∀ g ∈ reports 0 (fun _ => none)
            [⟨2, none, JobStatus.Running, some 2, "act", some "g"⟩,
             ⟨1, none, JobStatus.Completed, some 1, "act", some "g"⟩],
          List.Sorted (fun a b : JobRecord => createdKey 0 b ≤ createdKey 0 a) g.jobs := by
  constructor
  · decide
  · intro hall
    have := hall
      ⟨2, some "act", JobStatus.Completed, 2,
        [⟨1, none, JobStatus.Completed, some 1, "act", some "g"⟩,
         ⟨2, none, JobStatus.Running, some 2, "act", some "g"⟩]⟩
      (by decide)
    revert this
    decide

/-- Sorted order of all groups produced by the fold, given a fetch in
descending creation order and in-memory reports that preserve creation
timestamps. -/
theorem foldl_processJob_sorted (now : Int) (active : Nat → Option JobRecord) :
    ∀ (l : List JobRecord) (acc : List (String × JobGroup)),
      List.Pairwise (fun a b => createdKey now b ≤ createdKey now a) l →
      (∀ j ∈ l, ∀ r, active j.id = some r → r.created_at = j.created_at) →
      (∀ p ∈ acc,
          List.Sorted (fun a b : JobRecord => createdKey now a ≤ createdKey now b) p.2.jobs
          ∧ ∀ h0, p.2.jobs.head? = some h0 →
              ∀ j' ∈ l, createdKey now j' ≤ createdKey now h0) →
      ∀ p ∈ l.foldl (processJob now active) acc,
        List.Sorted (fun a b : JobRecord => createdKey now a ≤ createdKey now b) p.2.jobs := by
  intro l
  induction l with
  | nil =>
    intro acc _ _ hacc p hp
    exact (hacc p hp).1
  | cons j rest ih =>
    intro acc hsort hact hacc
    rw [List.foldl_cons]
    have hkey : createdKey now (reportOf active j) = createdKey now j := by
      rw [reportOf]
      cases hr : active j.id with
      | none => rfl
      | some r =>
        have := hact j (List.mem_cons_self _ _) r hr
        simp [createdKey, this]
    have hsort1 : ∀ j' ∈ rest, createdKey now j' ≤ createdKey now j :=
      (List.pairwise_cons.mp hsort).1
    have hsingle :
        List.Sorted (fun a b : JobRecord => createdKey now a ≤ createdKey now b)
          [reportOf active j] := List.sorted_singleton _
    have hsinglehead : ∀ h0, ([reportOf active j] : List JobRecord).head? = some h0 →
        ∀ j' ∈ rest, createdKey now j' ≤ createdKey now h0 := by
      intro h0 hh0 j' hj'
      rw [List.head?_cons] at hh0
      injection hh0 with hh0
      subst hh0
      rw [hkey]
      exact hsort1 j' hj'
    have hold : ∀ q ∈ acc,
        List.Sorted (fun a b : JobRecord => createdKey now a ≤ createdKey now b) q.2.jobs
        ∧ ∀ h0, q.2.jobs.head? = some h0 →
            ∀ j' ∈ rest, createdKey now j' ≤ createdKey now h0 := fun q hq =>
      ⟨(hacc q hq).1, fun h0 hh0 j' hj' =>
        (hacc q hq).2 h0 hh0 j' (List.mem_cons_of_mem _ hj')⟩
    have hacc' : ∀ p ∈ processJob now active acc j,
        List.Sorted (fun a b : JobRecord => createdKey now a ≤ createdKey now b) p.2.jobs
        ∧ ∀ h0, p.2.jobs.head? = some h0 →
            ∀ j' ∈ rest, createdKey now j' ≤ createdKey now h0 := by
      intro p hp
      cases hgk : j.group_key with
      | none =>
        simp only [processJob, hgk] at hp
        rcases mem_alistSet _ _ _ _ hp with h1 | h1
        · subst h1
          exact ⟨hsingle, hsinglehead⟩
        · exact hold p h1
      | some gk =>
        cases hget : alistGet? acc gk with
        | none =>
          simp only [processJob, hgk, hget] at hp
          rcases mem_alistSet _ _ _ _ hp with h1 | h1
          · subst h1
            exact ⟨hsingle, hsinglehead⟩
          · exact hold p h1
        | some g =>
          simp only [processJob, hgk, hget] at hp
          rcases mem_alistSet _ _ _ _ hp with h1 | h1
          · subst h1
            have hg := hacc (gk, g) (alistGet?_mem _ _ _ hget)
            constructor
            · show List.Sorted _ (reportOf active j :: g.jobs)
              rw [List.sorted_cons]
              refine ⟨?_, hg.1⟩
              intro b hb
              cases hjobs : g.jobs with
              | nil =>
                rw [hjobs] at hb
                exact absurd hb (List.not_mem_nil b)
              | cons h0 t =>
                have hh0 : createdKey now j ≤ createdKey now h0 :=
                  hg.2 h0 (by rw [hjobs]; rfl) j (List.mem_cons_self _ _)
                have hsorted0 :
                    List.Sorted (fun a b : JobRecord => createdKey now a ≤ createdKey now b)
                      (h0 :: t) := hjobs ▸ hg.1
                rw [hjobs] at hb
                rcases List.mem_cons.mp hb with rfl | hbt
                · rw [hkey]
                  exact hh0
                · have : createdKey now h0 ≤ createdKey now b :=
                    (List.pairwise_cons.mp hsorted0).1 b hbt
                  rw [hkey]
                  exact le_trans hh0 this
            · intro h0 hh0 j' hj'
              rw [show (addMember active g j).jobs = reportOf active j :: g.jobs from rfl,
                List.head?_cons] at hh0
              injection hh0 with hh0
              subst hh0
              rw [hkey]
              exact hsort1 j' hj'
          · exact hold p h1
    exact ih _ (List.pairwise_cons.mp hsort).2
      (fun j' hj' => hact j' (List.mem_cons_of_mem _ hj')) hacc'

/-- C4 amended: the groups returned by the reports query are ordered by
`created_at` descending (most recent group first), but within every group
the member job reports are ordered most-recent-LAST (oldest first): the
loop iterates the fetch in descending creation order and pushes each member
to the front of the group's deque. Hypotheses: the fetched list is in
descending creation order (as the database query guarantees), and in-memory
reports carry the same `created_at` as their persisted row. -/
theorem reports_group_order (now : Int) (active : Nat → Option JobRecord)
    (l : List JobRecord)
    (hsorted : List.Pairwise (fun a b => createdKey now b ≤ createdKey now a) l)
    (hactive : ∀ j ∈ l, ∀ r, active j.id = some r → r.created_at = j.created_at) :
    List.Sorted groupsRel (reports now active l)
      ∧ ∀ g ∈ reports now active l,
          List.Sorted (fun a b : JobRecord => createdKey now a ≤ createdKey now b) g.jobs := by
  constructor
  · exact List.sorted_insertionSort _ _
  · intro g hg
    have hg2 : g ∈ (l.foldl (processJob now active) []).map Prod.snd := by
      rw [reports] at hg
      exact ((List.perm_insertionSort groupsRel _).mem_iff).mp hg
    rcases List.mem_map.mp hg2 with ⟨p, hp, rfl⟩
    exact foldl_processJob_sorted now active l [] hsorted hactive
      (fun q hq => absurd hq (List.not_mem_nil q)) p hp

/-- C4 witness: the amended theorem applied to the two-job input — the
single returned group is sorted oldest-first. -/
theorem reports_group_order_witness :
    List.Sorted groupsRel (reports 0 (fun _ => none)
        [⟨2, none, JobStatus.Running, some 2, "act", some "g"⟩,
         ⟨1, none, JobStatus.Completed, some 1, "act", some "g"⟩])
      ∧ ∀ g ∈ reports 0 (fun _ => none)
            [⟨2, none, JobStatus.Running, some 2, "act", some "g"⟩,
             ⟨1, none, JobStatus.Completed, some 1, "act", some "g"⟩],
          List.Sorted (fun a b : JobRecord => createdKey 0 a ≤ createdKey 0 b) g.jobs :=
  reports_group_order 0 (fun _ => none)
    [⟨2, none, JobStatus.Running, some 2, "act", some "g"⟩,
     ⟨1, none, JobStatus.Completed, some 1, "act", some "g"⟩]
    (by decide) (fun _ _ r hr => Option.noConfusion hr)

/-- C10: the reports query fetches at most the 100 most recently created
persisted rows (`order_by date_created desc`, `take(100)`) before grouping:
a persisted job beyond the 100 most recent (and with the table's ids
unique, as its primary key guarantees) never appears — by id — in any
member list of any returned group. In-memory substitution cannot smuggle it
in because active reports are keyed by, and carry, the id of a fetched
job. -/
theorem reports_take_100_bound (now : Int) (active : Nat → Option JobRecord)
    (db : List JobRecord) (x : JobRecord)
    (hx : x ∈ db.drop 100)
    (hids : (db.map (fun j => j.id)).Nodup)
    (hactive : ∀ i r, active i = some r → r.id = i) :
    ∀ g ∈ reportsQuery now active db, ∀ m ∈ g.jobs, m.id ≠ x.id := by
  intro g hg m hm
  have hQ : ∀ p ∈ (db.take 100).foldl (processJob now active) [], ∀ m' ∈ p.2.jobs,
      ∃ j ∈ db.take 100, m'.id = j.id := by
    refine foldl_processJob_members now active
        (fun m' => ∃ j ∈ db.take 100, m'.id = j.id) (db.take 100) [] ?_ ?_
    · intro j hj
      refine ⟨j, hj, ?_⟩
      rw [reportOf]
      cases hr : active j.id with
      | none => rfl
      | some r =>
        simpa using hactive j.id r hr
    · intro p hp
      exact absurd hp (List.not_mem_nil p)
  have hg2 : g ∈ ((db.take 100).foldl (processJob now active) []).map Prod.snd := by
    rw [reportsQuery, reports] at hg
    exact ((List.perm_insertionSort groupsRel _).mem_iff).mp hg
  rcases List.mem_map.mp hg2 with ⟨p, hp, rfl⟩
  rcases hQ p hp m hm with ⟨j, hj, hmj⟩
  intro hcontra
  have hxid : x.id ∈ (db.drop 100).map (fun j => j.id) :=
    List.mem_map_of_mem _ hx
  have hjid : x.id ∈ (db.take 100).map (fun j => j.id) := by
    rw [← hcontra, hmj]
    exact List.mem_map_of_mem _ hj
  have hsplit : (db.map (fun j => j.id)).Nodup := hids
  rw [← List.take_append_drop 100 db, List.map_append, List.nodup_append] at hsplit
  exact hsplit.2.2 hjid hxid

/-- C10 witness: a table of 101 rows (ids 0..100, descending creation
order, one shared group key); the row beyond the first 100 (id 100) is
absent from every returned group. -/
theorem reports_take_100_bound_witness :
    (reportsQuery 0 (fun _ => none)
        ((List.range 101).map (fun i =>
          (⟨i, none, JobStatus.Completed, some (-(i : Int)), "act", some "g"⟩ : JobRecord)))).all
      (fun g => g.jobs.all (fun m => m.id != 100)) = true := by
  have h := reports_take_100_bound 0 (fun _ => none)
    ((List.range 101).map (fun i =>
      (⟨i, none, JobStatus.Completed, some (-(i : Int)), "act", some "g"⟩ : JobRecord)))
    ⟨100, none, JobStatus.Completed, some (-(100 : Int)), "act", some "g"⟩
    (by decide) (by decide) (fun _ r hr => Option.noConfusion hr)
  rw [List.all_eq_true]
  intro g hg
  rw [List.all_eq_true]
  intro m hm
  simpa using h g hg m hm

end Spacedrive
